import Mathlib

/-!
# A verification development for funkdigen2 (`src/main.rs`)

Shallow embedding of the generator of functional digraphs up to isomorphism.
Rust machine integers (`u8`, `usize`) are embedded as `Nat`; the program
restricts the vertex count to `u8`, so none of the arithmetic below can
overflow in a reachable execution.  `Vec<T>` becomes `List`, and the
reference-counted sharing (`Rc`) is dropped, since it only avoids
allocations and does not change the values computed.  Rust loops become
recursion; loops whose bound is data-dependent take an explicit
iteration-count argument that is provably at least the number of
iterations the Rust loop performs, so the embedded function computes the
same result (comments at each definition explain the bound).
-/

/-- Isomorphism code of a rooted tree (`type Tree = Vec<u8>` in the source):
entry 0 is the size of the tree, followed by the concatenated codes of the
root's subtrees in nondecreasing order. -/
abbrev Tree' := List Nat

/-- Isomorphism code of a connected functional digraph
(`type Comp = Vec<Rc<Tree>>`): the trees hanging from the cycle, in cycle
order. -/
abbrev Comp := List Tree'

/-- Isomorphism code of a functional digraph (`type Func = Vec<Rc<Comp>>`). -/
abbrev Func := List Comp

/-- A partition of an integer (`type Part = Vec<u8>`). -/
abbrev Part' := List Nat

/-- Adjacency vector (`type Adj = Vec<u8>`). -/
abbrev Adj := List Nat

/-- Bit string (`type Bits = Vec<bool>`). -/
abbrev Bits := List Bool

/-- Lexicographic comparison of `Vec<u8>` values, as given by Rust's derived
`Ord` on vectors: elementwise comparison, and a strict prefix is smaller. -/
def cmpL : List Nat → List Nat → Ordering
  | [], [] => .eq
  | [], _ :: _ => .lt
  | _ :: _, [] => .gt
  | a :: as, b :: bs =>
    match compare a b with
    | .eq => cmpL as bs
    | o => o

/-- `is_sorted`: check that adjacent elements are nondecreasing.  (The Rust
source iterates `0..s.len() - 1`; it is only ever applied to nonempty
slices, where this recursion computes the same answer.) -/
def is_sorted : List Tree' → Bool
  | [] => true
  | [_] => true
  | a :: b :: rest =>
    match cmpL a b with
    | .gt => false
    | _ => is_sorted (b :: rest)

/-- Inner loop of `naive_is_min_rotation` for one rotation offset `r`:
scan positions `i` (the argument list is `List.range s.length`), comparing
`s[i]` with `s[(i + r) % s.len()]`; `Greater` rejects the whole test,
`Less` accepts this offset, `Equal` moves on. -/
def naive_rot_check (s : List Tree') (r : Nat) : List Nat → Bool
  | [] => true
  | i :: is =>
    match cmpL (s.getD i []) (s.getD ((i + r) % s.length) []) with
    | .gt => false
    | .lt => true
    | .eq => naive_rot_check s r is

/-- `naive_is_min_rotation`: `s` is its own minimal rotation, checked by
comparing `s` against each of its rotations `r = 1, ..., s.len() - 1`. -/
def naive_is_min_rotation (s : List Tree') : Bool :=
  (List.range' 1 (s.length - 1)).all fun r =>
    naive_rot_check s r (List.range s.length)

/-- Inner `while` loop of `lcs_is_min_rotation` (Booth's algorithm):
follow the failure chain `i := f[i]` while `i != -1` and
`s[j % n] != s[(k + i + 1) % n]`, lowering `k` to `j - i - 1` whenever
the candidate symbol is smaller.  In Rust `i` has type `i32` and the
index is computed as `k + i as usize + 1`, which wraps to `k` when
`i = -1`; `(i + 1).toNat` reproduces both cases.  The first argument is
an iteration bound (the failure chain descends, so `2 * n + 2`
suffices). -/
def lcs_while (s : List Tree') (n : Nat) (f : List Int) (j : Nat) :
    Nat → Int → Nat → Int × Nat
  | 0, i, k => (i, k)
  | fuel + 1, i, k =>
    if i ≠ -1 ∧ cmpL (s.getD (j % n) []) (s.getD ((k + (i + 1).toNat) % n) []) ≠ .eq then
      let k' := if cmpL (s.getD (j % n) []) (s.getD ((k + (i + 1).toNat) % n) []) = .lt
                then j - i.toNat - 1 else k
      lcs_while s n f j fuel (f.getD i.toNat 0) k'
    else (i, k)

/-- Body of the `for j in 1..2 * n` loop of `lcs_is_min_rotation`:
run the failure chain, then either record a fresh mismatch (possibly
moving `k` to `j`) with `f[j - k] = -1`, or extend the match with
`f[j - k] = i + 1`. -/
def lcs_step (s : List Tree') (n : Nat) (fk : List Int × Nat) (j : Nat) : List Int × Nat :=
  let f := fk.1
  let res := lcs_while s n f j (2 * n + 2) (f.getD (j - fk.2 - 1) 0) fk.2
  let i := res.1
  let k := res.2
  if i = -1 ∧ cmpL (s.getD (j % n) []) (s.getD ((k + (i + 1).toNat) % n) []) ≠ .eq then
    let k' := if cmpL (s.getD (j % n) []) (s.getD ((k + (i + 1).toNat) % n) []) = .lt
              then j else k
    (f.set (j - k') (-1), k')
  else
    (f.set (j - k) (i + 1), k)

/-- `lcs_is_min_rotation`: minimal-rotation test based on Booth's
least-circular-substring algorithm run over the doubled sequence; `k`
ends at the start of the least rotation and the final test checks that
rotating `s` by `k` gives `s` back.  (The final slicings panic in Rust if
`k > n`; Booth's invariant keeps `k < n`, and here they are
`drop`/`take`.) -/
def lcs_is_min_rotation (s : List Tree') : Bool :=
  let n := s.length
  let res := (List.range' 1 (2 * n - 1)).foldl (lcs_step s n) (List.replicate (2 * n) (-1), 0)
  decide (s.drop res.2 = s.take (n - res.2) ∧ s.take res.2 = s.drop (n - res.2))

/-- The minimal-rotation test selected by the program configuration: the
default (no `--lcs` flag) is the naive test, which is the variant the
program uses unless Booth's algorithm is explicitly requested. -/
def IS_MIN_ROTATION (s : Comp) : Bool := naive_is_min_rotation s

/-- The top-level subtree codes of tree code `t`, starting at index `i`:
the loop `while i < t.len() { push t[i..i + t[i]]; i += t[i] }` of
`unmerge`.  The first argument is an iteration count: `i` grows by
`t[i] ≥ 1` every step, so `t.length - i` steps always suffice (see
`treeParts`).  A zero entry `t[i] = 0` would make the Rust loop spin
forever; valid tree codes have positive entries, and the embedding stops
there. -/
def treePartsF (t : Tree') : Nat → Nat → List Tree'
  | 0, _ => []
  | fuel + 1, i =>
    if i < t.length then
      if t.getD i 0 = 0 then []
      else ((t.drop i).take (t.getD i 0)) :: treePartsF t fuel (i + t.getD i 0)
    else []

/-- Subtree decomposition of `t` from index `i` (see `treePartsF`). -/
def treeParts (t : Tree') (i : Nat) : List Tree' :=
  treePartsF t (t.length - i) i

/-- `unmerge`: compute the unmerge `u` of component `c` and the indices
`l`, `r` such that remerging `u` between `l` and `r` gives back `c`.
The initial `while` loop copies the leading single-vertex trees, so `l` is
the index of the first tree of length other than 1; if there is none the
function returns `None`.  Otherwise the tree `t = c[l]` is replaced by the
single-vertex tree `[1]` followed by the top-level subtrees of `t`, and
the remaining trees are copied. -/
def unmerge (c : Comp) : Option (Comp × Nat × Nat) :=
  let l := c.findIdx fun t => t.length ≠ 1
  if l = c.length then none
  else
    let t := c.getD l []
    let parts := treeParts t 1
    some (c.take l ++ [1] :: parts ++ c.drop (l + 1), l, l + 1 + parts.length)

/-- `has_unmerge`: check that component `c` has unmerge `u` (only correct
in the context of `merge`, as in the source). -/
def has_unmerge (c : Comp) (u : Comp) : Bool :=
  let i := c.findIdx fun t => t.length ≠ 1
  (u.getD i []).getD 0 0 = 1

/-- The candidate component `m` built inside `merge`: the trees before
`l`, then the local `t` — the single-vertex tree `[1]` extended with the
codes `c[l+1], ..., c[r-1]`, its size entry accumulating their lengths —
then the trees from `r` on. -/
def mergeBuild (c : Comp) (l r : Nat) : Comp :=
  c.take l ++
    ((1 + (((c.drop (l + 1)).take (r - (l + 1))).map List.length).sum) ::
      ((c.drop (l + 1)).take (r - (l + 1))).flatten) :: c.drop r

/-- `merge`: merge trees `c[l], ..., c[r - 1]` if that gives a valid
isomorphism code for a component: `c[l]` must be a single-vertex tree,
the merged range must be sorted, and the candidate (see `mergeBuild`)
must be its own minimal rotation and have `c` as unmerge.  (Every call in
the program has `l + 2 ≤ r ≤ c.len()`; out-of-range indices, which
would panic in Rust, read the empty list/slice here.) -/
def merge (c : Comp) (l r : Nat) : Option Comp :=
  if (c.getD l []).length ≠ 1 ∨ is_sorted ((c.drop l).take (r - l)) = false then none
  else if IS_MIN_ROTATION (mergeBuild c l r) = false ∨ has_unmerge (mergeBuild c l r) c = false then none
  else some (mergeBuild c l r)

/-- Inner loop of `next_merge`: try `merge c l r`, `merge c l (r+1)`, ...
`while r <= c.len()`.  The first argument is the iteration count; the
caller passes `c.length + 1 - r`, which is exactly the number of values
of `r` the Rust loop tries. -/
def next_merge_inner (c : Comp) (l : Nat) : Nat → Nat → Option Comp
  | 0, _ => none
  | fuel + 1, r =>
    match merge c l r with
    | some m => some m
    | none => next_merge_inner c l fuel (r + 1)

/-- `next_merge`: compute the next valid merge of `c`, if any, starting
from `l` (decreasing) and up to and excluding `r` (increasing); when the
right endpoints at anchor `l` are exhausted, restart at `l - 1` with
`r = l + 1`, stopping when `l` reaches 0. -/
def next_merge (c : Comp) : Nat → Nat → Option Comp
  | 0, r => next_merge_inner c 0 (c.length + 1 - r) r
  | l + 1, r =>
    match next_merge_inner c (l + 1) (c.length + 1 - r) r with
    | some m => some m
    | none => next_merge c l (l + 2)

/-- Measure used to bound the unmerge loop of `next_comp`: total tree size
minus the number of trees, plus the number of (invalid) empty tree codes.
`unmerge` strictly decreases it (`compM_unmerge_lt` below). -/
def compM (c : Comp) : Nat :=
  (c.map fun t => t.length - 1).sum + c.countP fun t => t.length = 0

/-- The `while let Some((u, l, r)) = res` loop of `next_comp`: try to
remerge the unmerged component, and unmerge again on failure.  The first
argument is an iteration count; `next_comp` passes `compM c + 1`, which
suffices because `compM` strictly decreases along `unmerge`
(`unmergeGo_congr` shows the result does not depend on the count once it
is at least `compM u + 1`). -/
def unmergeGo : Nat → Option (Comp × Nat × Nat) → Option Comp
  | _, none => none
  | 0, some _ => none
  | fuel + 1, some (u, l, r) =>
    match next_merge u l (r + 1) with
    | some m => some m
    | none => unmergeGo fuel (unmerge u)

/-- `next_comp`: compute the next component by merging `c`, if possible
(only attempted when `c` has at least two trees), and otherwise by
unmerging and remerging, if possible. -/
def next_comp (c : Comp) : Option Comp :=
  match (if 2 ≤ c.length then next_merge c (c.length - 2) c.length else none) with
  | some m => some m
  | none => unmergeGo (compM c + 1) (unmerge c)

/-- `comp_size`: the number of vertices of a component. -/
def comp_size (c : Comp) : Nat := (c.map List.length).sum

/-- `cycle`: the component consisting of a cycle of length `n`. -/
def cycle (n : Nat) : Comp := List.replicate n [1]

/-- The loop of `generate_comps`, recording the emitted components: emit
`c`, and continue with `next_comp c` while it exists.  The first argument
bounds the number of emissions; `none` means the bound was too small,
`some l` that the Rust loop terminates after emitting exactly the
components in `l` (the Rust function returns their count). -/
def gen_comps_from : Nat → Comp → Option (List Comp)
  | 0, _ => none
  | fuel + 1, c =>
    match next_comp c with
    | some d => (gen_comps_from fuel d).map (c :: ·)
    | none => some [c]

/-- `generate_comps`: generate all components of `n` vertices starting
from `cycle n`; for `n = 0` nothing is generated and the count is 0.
The result list's length is the count the Rust function returns. -/
def generate_comps (n : Nat) (fuel : Nat) : Option (List Comp) :=
  if n = 0 then some [] else gen_comps_from fuel (cycle n)

/-- `sum_part`: the sum of a partition. -/
def sum_part (p : Part') : Nat := p.sum

/-- The `while x <= y` loop of `next_part`: write `x` at position `k`,
subtract it from `y` and move right.  `x = p[k] + 1 ≥ 1` at the only call
site, so the extra `0 < x` in the condition never changes the result; the
iteration count argument `y + 1` passed by `next_part` suffices since `y`
shrinks by `x ≥ 1` every step. -/
def next_part_go : Nat → Part' → Nat → Nat → Nat → Part' × Nat × Nat
  | 0, p, k, _, y => (p, k, y)
  | fuel + 1, p, k, x, y =>
    if 0 < x ∧ x ≤ y then next_part_go fuel (p.set k x) (k + 1) x (y - x)
    else (p, k, y)

/-- `next_part`: the next partition of the same integer in lexicographic
order, if it exists (Kelleher-O'Sullivan).  The working vector is padded
with zeros up to the total `n`; the result is truncated to the active
length `k + 1`. -/
def next_part (p : Part') : Option Part' :=
  if p.length ≤ 1 then none
  else
    let n := sum_part p
    let p1 := p ++ List.replicate (n - p.length) 0
    let y0 := p.getD (p.length - 1) 0 - 1
    let x := p.getD (p.length - 2) 0 + 1
    let res := next_part_go (y0 + 1) p1 (p.length - 2) x y0
    some ((res.1.set res.2.1 (x + res.2.2)).take (res.2.1 + 1))

/-- `part`: the partition corresponding to functional digraph `g`, i.e.
the list of the sizes of its components. -/
def part (g : Func) : Part' := g.map fun c => comp_size c

/-- `loops`: the functional digraph consisting of `n` self-loops. -/
def loops (n : Nat) : Func := List.replicate n (cycle 1)

/-- The backwards scan `for h in (0..g.len()).rev()` of `next_func`:
find the rightmost index `h < m` whose component has a successor, and
that successor. -/
def find_succ (g : Func) : Nat → Option (Nat × Comp)
  | 0 => none
  | h + 1 =>
    match next_comp (g.getD h []) with
    | some c => some (h, c)
    | none => find_succ g h

/-- `next_func`: compute the next functional digraph by taking the
successor of the rightmost component having a successor; the components
to its left are kept, and each component to its right is replaced by the
new component when the sizes agree (the Rust code pushes `f[h].clone()`,
which is that new component) and by the size's cycle otherwise.  When no
component has a successor, move to the next partition and restart with
the cycle of each size; when the partition is exhausted too, return
`none`. -/
def next_func (g : Func) : Option Func :=
  match find_succ g g.length with
  | some (h, c) =>
    some ((List.range' (h + 1) (g.length - (h + 1))).foldl
      (fun f i =>
        f ++ [if comp_size (g.getD i []) = comp_size c then f.getD h []
              else cycle (comp_size (g.getD i []))])
      (g.take h ++ [c]))
  | none =>
    match next_part (part g) with
    | some q => some (q.map fun m => cycle m)
    | none => none

/-- The loop of `generate_funcs`, recording the emitted digraphs (see
`gen_comps_from` for the role of the iteration bound). -/
def gen_funcs_from : Nat → Func → Option (List Func)
  | 0, _ => none
  | fuel + 1, g =>
    match next_func g with
    | some f => (gen_funcs_from fuel f).map (g :: ·)
    | none => some [g]

/-- `generate_funcs`: generate all functional digraphs of `n` vertices
starting from `loops n`.  The result list's length is the count the Rust
function returns. -/
def generate_funcs (n : Nat) (fuel : Nat) : Option (List Func) :=
  gen_funcs_from fuel (loops n)

/-!  ## Serialization in digraph6 format -/

/-- The recursive `fill_tree_adj` and its inner `while j < i + t[i]`
loop, merged into one function selected by the `Bool` argument: `true` is
`fill_tree_adj t a i r b` (record the parent `r + b` of position `i`,
then walk the children), `false` is the children loop at window owner `i`
and current child root `j` (the fourth argument doubles as `r` and `j`).
The `Nat` argument bounds the recursion depth (two levels per tree
level, so `2 * t.length + 2` always suffices); the extra guards
`j < t.length` and `t[j] ≠ 0` cut executions on invalid tree codes,
where the Rust code would panic or spin. -/
def fillF (t : Tree') : Nat → Bool → Adj → Nat → Nat → Nat → Adj
  | 0, _, a, _, _, _ => a
  | fuel + 1, true, a, i, r, b => fillF t fuel false (a.set i (r + b)) i (i + 1) b
  | fuel + 1, false, a, i, j, b =>
    if j < i + t.getD i 0 ∧ j < t.length ∧ t.getD j 0 ≠ 0 then
      fillF t fuel false (fillF t fuel true a j i b) i (j + t.getD j 0) b
    else a

/-- `tree_adj`: the adjacency vector of a tree, with `b` as the name of
its root. -/
def tree_adj (t : Tree') (b : Nat) : Adj :=
  fillF t (2 * t.length + 2) true (List.replicate t.length 0) 0 0 b

/-- Loop of `comp_adj` over the trees of the component: each tree's
adjacency vector is computed with its first vertex named `b + j`, and
its root is then pointed at the next tree's root (or back at the first
vertex `b` for the last tree). -/
def comp_adj_go (b : Nat) : List Tree' → Nat → Adj
  | [], _ => []
  | t :: ts, j =>
    let a1 := tree_adj t (b + j)
    let a1 := a1.set 0 (if ts = [] then b else b + j + t.length)
    a1 ++ comp_adj_go b ts (j + t.length)

/-- `comp_adj`: the adjacency vector of component `c`, using `b` as the
name of its first vertex. -/
def comp_adj (c : Comp) (b : Nat) : Adj := comp_adj_go b c 0

/-- Loop of `func_adj` over the components, with `b` accumulating the
number of vertices already named. -/
def func_adj_go : List Comp → Nat → Adj
  | [], _ => []
  | c :: gs, b =>
    let a1 := comp_adj c b
    a1 ++ func_adj_go gs (b + a1.length)

/-- `func_adj`: the adjacency vector of functional digraph `g`. -/
def func_adj (g : Func) : Adj := func_adj_go g 0

/-- `adj_matrix`: convert an adjacency vector to an adjacency matrix as a
bit vector (rows concatenated), deleting self-loops if `loopless` (the
command-line flag `ARGS.loopless`, threaded as a parameter) is true. -/
def adj_matrix (loopless : Bool) (a : Adj) : Bits :=
  ((List.range a.length).map fun i =>
    (List.range a.length).map fun j =>
      (!loopless || decide (i ≠ j)) && decide (a.getD i 0 = j)).flatten

/-- The 6-bit group starting a bit vector: `n = 2 * n + bit` over six
positions, missing positions contributing a zero bit, exactly as the
inner loop `for j in i..i + 6` of `bits_to_ascii`. -/
def six_fold : Nat → Bits → Nat → Nat
  | 0, _, n => n
  | j + 1, [], n => six_fold j [] (2 * n)
  | j + 1, b :: bs, n => six_fold j bs (2 * n + if b then 1 else 0)

/-- Chunking loop of `bits_to_ascii`; the iteration count (`x.length` at
the top call) bounds the number of 6-bit groups. -/
def bits_to_ascii_go : Nat → Bits → String
  | 0, _ => ""
  | fuel + 1, x =>
    if x.isEmpty then ""
    else String.singleton (Char.ofNat (six_fold 6 x 0 + 63)) ++ bits_to_ascii_go fuel (x.drop 6)

/-- `bits_to_ascii`: convert a bit vector into an ASCII string according
to the digraph6 specifications: the bits packed 6 at a time (zero-padded),
each group offset by 63 into printable ASCII. -/
def bits_to_ascii (x : Bits) : String := bits_to_ascii_go x.length x

/-- The 18 little-endian binary digits of `n`, as pushed by the loop
`for _ in 0..18 { b.push(n % 2 == 1); n /= 2 }` of `int_to_ascii`. -/
def le_bits : Nat → Nat → Bits
  | 0, _ => []
  | k + 1, n => (decide (n % 2 = 1)) :: le_bits k (n / 2)

/-- `int_to_ascii`: the digraph6 ASCII representation of integer `n` in
the range 0..255: a single offset byte for `n < 63`, and the
`bits_to_ascii` encoding of the 18-bit big-endian binary representation
for `63 ≤ n ≤ 255`. -/
def int_to_ascii (n : Nat) : String :=
  if n < 63 then String.singleton (Char.ofNat (n + 63))
  else bits_to_ascii (le_bits 18 n).reverse

/-- `print_digraph6`, modelled as the line it prints (without the
trailing newline): `&`, then the vertex count, then the packed adjacency
matrix. -/
def digraph6_line (loopless : Bool) (g : Func) : String :=
  let a := func_adj g
  "&" ++ int_to_ascii a.length ++ bits_to_ascii (adj_matrix loopless a)

/-!  ## Validity and canonicity predicates

The program maintains these invariants by construction; they are the
hypotheses under which the claims about `unmerge`/`merge` are stated.  A
tree code is valid when its size entry is its length, all entries are
positive, and its top-level subtree codes are sorted nondecreasingly and
themselves valid. -/

/-- Recursive validity of a tree code; the first argument is an
iteration bound on the recursion depth (subtree codes are strictly
shorter, so `t.length` suffices, see `validTree`). -/
def validTreeF : Nat → Tree' → Bool
  | 0, _ => false
  | fuel + 1, t =>
    0 < t.length && t.getD 0 0 = t.length && t.all (fun k => 0 < k) &&
    is_sorted (treeParts t 1) && (treeParts t 1).all (validTreeF fuel)

/-- A valid tree code: `t[0] = t.length`, positive entries, and the
top-level subtree codes sorted nondecreasingly and themselves valid. -/
def validTree (t : Tree') : Bool := validTreeF t.length t

/-- A valid component code: every tree in it is valid.  (Canonicity — the
minimal-rotation property — is stated separately via
`IS_MIN_ROTATION`.) -/
def validComp (c : Comp) : Bool := c.all validTree

/-!  ## Concrete runs of the generators -/

/-- C8: concrete scenarios.  `generate_comps 0` emits nothing (count 0);
`generate_comps 1` emits exactly the single component `[[1]]`;
`generate_funcs 1` emits exactly the single self-loop digraph;
`generate_comps 2` emits exactly the 2-cycle `[[1], [1]]` and the 1-cycle
with one pendant vertex `[[2, 1]]` (count 2); `generate_funcs 2` emits
exactly the two-self-loops digraph of partition `{1, 1}` followed by the
two size-2 components (count 3).  The `some` value shows each loop
terminates within the given iteration bound. -/
theorem C8_concrete_counts :
    generate_comps 0 5 = some [] ∧
    generate_comps 1 5 = some [[[1]]] ∧
    generate_funcs 1 5 = some [[[[1]]]] ∧
    generate_comps 2 5 = some [[[1], [1]], [[2, 1]]] ∧
    generate_funcs 2 8 = some [[[[1]], [[1]]], [[[1], [1]]], [[[2, 1]]]] ∧
    (generate_comps 0 5).map List.length = some 0 ∧
    (generate_comps 1 5).map List.length = some 1 ∧
    (generate_funcs 1 5).map List.length = some 1 ∧
    (generate_comps 2 5).map List.length = some 2 ∧
    (generate_funcs 2 8).map List.length = some 3 := by
  decide

/-- C10: at `n = 0`, `generate_funcs` emits the empty digraph exactly
once and returns count 1, because `next_func []` is `none` (the empty
partition has no successor), while `generate_comps 0` emits nothing and
returns count 0. -/
theorem C10_generate_funcs_zero :
    generate_funcs 0 5 = some [[]] ∧
    (generate_funcs 0 5).map List.length = some 1 ∧
    next_func ([] : Func) = none ∧
    next_part (part ([] : Func)) = none ∧
    generate_comps 0 5 = some [] := by
  decide

/-- C9: the digraph6 line printed for the single-vertex self-loop digraph
`[[[1]]]` (loopless mode off) is exactly the three characters `&@_`:
`&`, the encoding `@` of vertex count 1, and the packing `_` of the
1×1 all-true adjacency matrix. -/
theorem C9_digraph6_single_loop : digraph6_line false [[[1]]] = "&@_" := by
  decide

/-- C5 (failing side): for `n = 63` the code emits only the three 6-bit
groups `??~` of the 18-bit representation, with no leading flag byte
`~` (character 126), contradicting the digraph6 definition of `N(n)`
for `63 ≤ n ≤ 255` that the claim (and the code's own comment) state. -/
theorem C5_int_to_ascii_63_no_flag :
    int_to_ascii 63 = "??~" ∧ (int_to_ascii 63).length = 3 ∧
    (int_to_ascii 63).take 1 ≠ "~" := by
  decide

/-!  ## The frame property of `next_func` (C7) -/

/-- The backwards scan finds `h` when every index strictly between `h`
and `m` has no component successor. -/
theorem find_succ_spec (g : Func) (h : Nat) (c : Comp)
    (hc : next_comp (g.getD h []) = some c) :
    ∀ m, h < m → (∀ k, h < k → k < m → next_comp (g.getD k []) = none) →
      find_succ g m = some (h, c) := by
  intro m
  induction m with
  | zero => intro hm; omega
  | succ m ih =>
    intro hm hnone
    unfold find_succ
    by_cases hhm : h = m
    · subst hhm
      rw [hc]
    · have hlt : h < m := by omega
      rw [hnone m hlt (Nat.lt_succ_self m)]
      exact ih hlt fun k hk1 hk2 => hnone k hk1 (Nat.lt_succ_of_lt hk2)

/-- The rebuilding loop of `next_func` only ever reads the new component
back out of the accumulator, so it is a plain `map` over the scanned
indices. -/
theorem next_func_foldl_spec (g : Func) (c : Comp) (h : Nat) :
    ∀ (L : List Nat) (f : Func), h < f.length → f.getD h [] = c →
      L.foldl (fun f i =>
          f ++ [if comp_size (g.getD i []) = comp_size c then f.getD h []
                else cycle (comp_size (g.getD i []))]) f
        = f ++ L.map (fun i =>
            if comp_size (g.getD i []) = comp_size c then c
            else cycle (comp_size (g.getD i []))) := by
  intro L
  induction L with
  | nil => intro f _ _; simp
  | cons i L ih =>
    intro f hlen hget
    have hstep :
        (if comp_size (g.getD i []) = comp_size c then f.getD h []
          else cycle (comp_size (g.getD i [])))
        = (if comp_size (g.getD i []) = comp_size c then c
          else cycle (comp_size (g.getD i []))) := by
      rw [hget]
    simp only [List.foldl_cons, hstep]
    rw [ih (f ++ [if comp_size (g.getD i []) = comp_size c then c
          else cycle (comp_size (g.getD i []))])
        (by simp; omega)
        (by rw [List.getD_append _ _ _ _ hlen]; exact hget)]
    simp

/-- Reading a list through its indices `s, s + 1, ...` is mapping over
its `s`-th suffix. -/
theorem map_getD_range' {α β : Type} (F : α → β) (d : α) :
    ∀ (n : Nat) (l : List α) (s : Nat), n = l.length - s →
      (List.range' s n).map (fun i => F (l.getD i d)) = (l.drop s).map F := by
  intro n
  induction n with
  | zero =>
    intro l s hn
    have : l.drop s = [] := List.drop_eq_nil_of_le (by omega)
    simp [this]
  | succ n ih =>
    intro l s hn
    have hs : s < l.length := by omega
    rw [List.range'_succ]
    have hdrop : l.drop s = l[s] :: l.drop (s + 1) := List.drop_eq_getElem_cons hs
    rw [hdrop]
    simp only [List.map_cons]
    congr 1
    · rw [List.getD_eq_getElem l d hs]
    · exact ih l (s + 1) (by omega)

/-- C7: when `h` is the rightmost index whose component has a successor
`c = next_comp g[h]`, `next_func g` succeeds and returns the digraph that
keeps `g[0..h]` unchanged, has `c` at position `h`, and replaces every
component to the right of `h` by `c` itself when its size equals the size
of `c` and by the all-self-loop cycle of its size otherwise. -/
theorem C7_next_func_frame (g : Func) (h : Nat) (c : Comp)
    (hh : h < g.length)
    (hc : next_comp (g.getD h []) = some c)
    (hrightmost : ∀ k, h < k → k < g.length → next_comp (g.getD k []) = none) :
    next_func g = some (g.take h ++ c ::
      (g.drop (h + 1)).map fun gc =>
        if comp_size gc = comp_size c then c else cycle (comp_size gc)) := by
  have h1 : next_func g = some ((List.range' (h + 1) (g.length - (h + 1))).foldl
      (fun f i =>
        f ++ [if comp_size (g.getD i []) = comp_size c then f.getD h []
              else cycle (comp_size (g.getD i []))])
      (g.take h ++ [c])) := by
    unfold next_func
    rw [find_succ_spec g h c hc g.length hh hrightmost]
  rw [h1]
  rw [next_func_foldl_spec g c h _ (g.take h ++ [c])
      (by simp [List.length_take]; try omega)
      (by
        rw [List.getD_append_right _ _ _ _ (by simp [List.length_take]; try omega)]
        simp [List.length_take, Nat.min_eq_left (Nat.le_of_lt hh)])]
  rw [map_getD_range'
      (fun gc => if comp_size gc = comp_size c then c else cycle (comp_size gc)) []
      (g.length - (h + 1)) g (h + 1) rfl]
  simp

/-- C7 (witness): in the digraph made of the 2-cycle followed by a
self-loop, the rightmost component with a successor is the 2-cycle at
index 0; its successor `[[2, 1]]` replaces it and the self-loop (of a
different size) is reset to `cycle 1`. -/
theorem C7_witness : next_func [[[1], [1]], [[1]]] = some [[[2, 1]], [[1]]] := by
  rw [C7_next_func_frame [[[1], [1]], [[1]]] 0 [[2, 1]] (by decide) (by decide)
    (fun k hk1 hk2 => by
      have hk2' : k < 2 := hk2
      have hk : k = 1 := by omega
      subst hk
      decide)]
  decide

/-- C4 (counterexample): `c = [[2, 1], [3, 1, 1]]` is a valid canonical
component code with two trees whose `unmerge` yields
`(u, l, r) = ([[1], [1], [3, 1, 1]], 0, 2)`, yet merging `u[l..r+1]`
(exclusive right bound `r + 1`) gives the single-tree component
`[[5, 1, 3, 1, 1]]`, not `c`: the bounds that reconstruct `c` are
`l` and `r` (exclusive), not `l` and `r + 1`. -/
theorem C4_counterexample :
    validComp [[2, 1], [3, 1, 1]] = true ∧
    IS_MIN_ROTATION [[2, 1], [3, 1, 1]] = true ∧
    2 ≤ ([[2, 1], [3, 1, 1]] : Comp).length ∧
    unmerge [[2, 1], [3, 1, 1]] = some ([[1], [1], [3, 1, 1]], 0, 2) ∧
    merge [[1], [1], [3, 1, 1]] 0 (2 + 1) = some [[5, 1, 3, 1, 1]] ∧
    merge [[1], [1], [3, 1, 1]] 0 (2 + 1) ≠ some [[2, 1], [3, 1, 1]] := by
  decide


/-!  ## The unmerge/merge round trip (C4) -/

/-- On a tree code with positive entries, the subtree slices are
contiguous and exhaust the code from index `i` on. -/
theorem treePartsF_flatten (t : Tree') (hpos : ∀ x ∈ t, 0 < x) :
    ∀ (fuel i : Nat), t.length - i ≤ fuel → (treePartsF t fuel i).flatten = t.drop i := by
  intro fuel
  induction fuel with
  | zero =>
    intro i hi
    have hle : t.length ≤ i := by omega
    simp [treePartsF, List.drop_eq_nil_of_le hle]
  | succ fuel ih =>
    intro i hi
    unfold treePartsF
    by_cases hlt : i < t.length
    · have hk : 0 < t.getD i 0 := by
        have hg : t.getD i 0 = t[i] := List.getD_eq_getElem t 0 hlt
        rw [hg]
        exact hpos _ (List.getElem_mem hlt)
      rw [if_pos hlt, if_neg (by omega)]
      simp only [List.flatten_cons]
      rw [ih (i + t.getD i 0) (by omega)]
      rw [← List.drop_drop]
      exact List.take_append_drop _ _
    · rw [if_neg hlt]
      simp [List.drop_eq_nil_of_le (by omega : t.length ≤ i)]

/-- The subtree slices of a tree code with positive entries concatenate
to everything after the size entry. -/
theorem treeParts_flatten (t : Tree') (hpos : ∀ x ∈ t, 0 < x) :
    (treeParts t 1).flatten = t.drop 1 :=
  treePartsF_flatten t hpos (t.length - 1) 1 (Nat.le_refl _)

/-- Unpacking the top level of `validTree`. -/
theorem validTree_spec (t : Tree') (h : validTree t = true) :
    1 ≤ t.length ∧ t.getD 0 0 = t.length ∧ (∀ x ∈ t, 0 < x) ∧
      is_sorted (treeParts t 1) = true := by
  have hlen : 1 ≤ t.length := by
    by_contra hc
    have h0 : t.length = 0 := by omega
    unfold validTree at h
    rw [h0] at h
    simp [validTreeF] at h
  obtain ⟨n, hn⟩ : ∃ n, t.length = n + 1 := ⟨t.length - 1, by omega⟩
  unfold validTree at h
  rw [hn] at h
  unfold validTreeF at h
  simp only [Bool.and_eq_true, decide_eq_true_eq, List.all_eq_true] at h
  exact ⟨hlen, h.1.1.1.2, fun x hx => by simpa using h.1.1.2 x hx, h.1.2⟩

/-- A singleton `[1]` never lexicographically exceeds a code starting
with a positive entry. -/
theorem cmpL_one_ne_gt (k : Nat) (tail : List Nat) (hk : 1 ≤ k) :
    cmpL [1] (k :: tail) ≠ .gt := by
  unfold cmpL
  rcases Nat.lt_or_ge 1 k with hlt | hge
  · have : compare 1 k = .lt := by
      simp [Nat.compare_eq_lt]
      omega
    rw [this]
    simp
  · have hk1 : k = 1 := by omega
    subst hk1
    have : compare 1 1 = .eq := by simp [Nat.compare_eq_eq]
    rw [this]
    cases tail <;> simp [cmpL]

/-- Prepending a smaller-or-equal element preserves `is_sorted`. -/
theorem is_sorted_cons (a b : Tree') (l : List Tree')
    (hab : cmpL a b ≠ .gt) (hl : is_sorted (b :: l) = true) :
    is_sorted (a :: b :: l) = true := by
  unfold is_sorted
  cases hc : cmpL a b
  · exact hl
  · exact hl
  · exact absurd hc hab

/-- C4 (amended): for every valid canonical component code `c` with at
least two trees, if `unmerge c` yields `(u, l, r)`, then re-merging the
trees `u[l], ..., u[r-1]` — `merge` with left bound `l` and exclusive
right bound `r` — returns `some c`, reconstructing exactly `c`. -/
theorem C4_round_trip (c u : Comp) (l r : Nat)
    (hv : validComp c = true)
    (hmin : IS_MIN_ROTATION c = true)
    (_htrees : 2 ≤ c.length)
    (hU : unmerge c = some (u, l, r)) :
    merge u l r = some c := by
  simp only [unmerge] at hU
  by_cases hfind : (c.findIdx fun t => decide (t.length ≠ 1)) = c.length
  · rw [if_pos hfind] at hU
    exact absurd hU (by simp)
  rw [if_neg hfind] at hU
  simp only [Option.some.injEq, Prod.mk.injEq] at hU
  obtain ⟨hu, hl, hr⟩ := hU
  have hlc : l < c.length := by
    rw [← hl]
    exact Nat.lt_of_le_of_ne (List.findIdx_le_length _) hfind
  rw [hl] at hu hr
  set t0 := c.getD l [] with ht0def
  set parts := treeParts t0 1 with hpartsdef
  set A := c.take l with hAdef
  set rest := c.drop (l + 1) with hrestdef
  have hAlen : A.length = l := by
    rw [hAdef, List.length_take]
    omega
  -- the tree at position l and its validity
  have hvt : validTree t0 = true := by
    rw [validComp, List.all_eq_true] at hv
    apply hv
    rw [ht0def, List.getD_eq_getElem c [] hlc]
    exact List.getElem_mem hlc
  obtain ⟨ht1, ht2, ht3, ht4⟩ := validTree_spec t0 hvt
  have htne : t0.length ≠ 1 := by
    have hidx : (c.findIdx fun t => decide (t.length ≠ 1)) < c.length := by
      rw [hl]
      exact hlc
    have hP : (c.getD (c.findIdx fun t => decide (t.length ≠ 1)) []).length ≠ 1 := by
      rw [List.getD_eq_getElem c [] hidx]
      simpa using @List.findIdx_getElem _ (fun t => decide (t.length ≠ 1)) c hidx
    rw [hl] at hP
    rw [ht0def]
    exact hP
  have htlen2 : 2 ≤ t0.length := by omega
  -- the first subtree of t0
  have h1lt : 1 < t0.length := by omega
  have hgd1 : t0.getD 1 0 = t0[1] := List.getD_eq_getElem t0 0 h1lt
  have hk1pos : 0 < t0.getD 1 0 := by
    rw [hgd1]
    exact ht3 _ (List.getElem_mem h1lt)
  obtain ⟨m, hm⟩ : ∃ m, t0.length - 1 = m + 1 := ⟨t0.length - 2, by omega⟩
  have hparts : parts = ((t0.drop 1).take (t0.getD 1 0)) :: treePartsF t0 m (1 + t0.getD 1 0) := by
    rw [hpartsdef]
    unfold treeParts
    rw [hm]
    conv_lhs => rw [treePartsF]
    rw [if_pos h1lt, if_neg (by omega)]
  -- the head of the first subtree is the positive entry t0[1]
  obtain ⟨k1, hk1⟩ : ∃ k1, t0.getD 1 0 = k1 + 1 := ⟨t0.getD 1 0 - 1, by omega⟩
  have hd1 : t0.drop 1 = t0[1] :: t0.drop 2 := List.drop_eq_getElem_cons h1lt
  have hp0 : (t0.drop 1).take (t0.getD 1 0) = t0[1] :: (t0.drop 2).take k1 := by
    rw [hd1, hk1, List.take_succ_cons]
  have hcmp : cmpL [1] ((t0.drop 1).take (t0.getD 1 0)) ≠ .gt := by
    rw [hp0]
    apply cmpL_one_ne_gt
    rw [← hgd1]
    omega
  have hsorted1 : is_sorted ([1] :: parts) = true := by
    rw [hparts]
    exact is_sorted_cons _ _ _ hcmp (hparts ▸ ht4)
  -- slices of u
  have huA : u = A ++ (([1] :: parts) ++ rest) := by
    rw [← hu, List.append_assoc]
  have huB : u = (A ++ [[1]]) ++ (parts ++ rest) := by
    rw [huA]
    simp [List.append_assoc]
  have huC : u = (A ++ ([1] :: parts)) ++ rest := by
    rw [← hu]
  have hgetl : u.getD l [] = [1] := by
    rw [huA, List.getD_append_right _ _ _ _ (by omega), hAlen, Nat.sub_self,
      List.cons_append, List.getD_cons_zero]
  have hdropl : u.drop l = [1] :: (parts ++ rest) := by
    rw [huA, List.drop_left' hAlen, List.cons_append]
  have hrl : r - l = parts.length + 1 := by omega
  have hslice : (u.drop l).take (r - l) = [1] :: parts := by
    rw [hdropl, hrl, List.take_succ_cons, List.take_left' rfl]
  have hdropl1 : u.drop (l + 1) = parts ++ rest := by
    rw [huB]
    exact List.drop_left' (by simp [hAlen])
  have hmid : (u.drop (l + 1)).take (r - (l + 1)) = parts := by
    rw [hdropl1, show r - (l + 1) = parts.length by omega, List.take_left' rfl]
  have htakel : u.take l = A := by
    rw [huA, List.take_left' hAlen]
  have hdropr : u.drop r = rest := by
    rw [huC]
    refine List.drop_left' ?_
    simp only [List.length_append, List.length_cons, hAlen]
    omega
  -- the rebuilt merged tree is t0
  have hflat : parts.flatten = t0.drop 1 := by
    rw [hpartsdef]
    exact treeParts_flatten t0 ht3
  have hsum : (parts.map List.length).sum = t0.length - 1 := by
    rw [← List.length_flatten, hflat, List.length_drop]
  obtain ⟨x, xs, hxe⟩ : ∃ x xs, t0 = x :: xs := by
    cases hc0 : t0 with
    | nil => rw [hc0] at ht1; simp at ht1
    | cons x xs => exact ⟨x, xs, rfl⟩
  have hx : x = xs.length + 1 := by
    have h2' := ht2
    rw [hxe] at h2'
    simpa using h2'
  have ht' : (1 + (parts.map List.length).sum) :: parts.flatten = t0 := by
    rw [hsum, hflat, hxe]
    simp only [List.length_cons, List.drop_succ_cons, List.drop_zero]
    rw [hx]
    congr 1
    omega
  -- the candidate rebuilt by merge is c itself
  have hmb : mergeBuild u l r = c := by
    unfold mergeBuild
    rw [hmid, htakel, hdropr, ht']
    rw [hAdef, hrestdef, ht0def, List.getD_eq_getElem c [] hlc]
    rw [← List.drop_eq_getElem_cons hlc]
    exact List.take_append_drop l c
  have hhas : has_unmerge c u = true := by
    simp only [has_unmerge]
    rw [hl, hgetl]
    simp
  -- evaluate merge
  unfold merge
  rw [if_neg (by
    rw [hgetl, hslice, hsorted1]
    simp)]
  rw [hmb, if_neg (by
    rw [hmin, hhas]
    simp)]

/-- C4 (witness): the amended round trip at the concrete component
`[[2, 1], [3, 1, 1]]`. -/
theorem C4_witness :
    validComp [[2, 1], [3, 1, 1]] = true ∧
    IS_MIN_ROTATION [[2, 1], [3, 1, 1]] = true ∧
    2 ≤ ([[2, 1], [3, 1, 1]] : Comp).length ∧
    unmerge [[2, 1], [3, 1, 1]] = some ([[1], [1], [3, 1, 1]], 0, 2) ∧
    merge [[1], [1], [3, 1, 1]] 0 2 = some [[2, 1], [3, 1, 1]] :=
  ⟨by decide, by decide, by decide, by decide,
    C4_round_trip [[2, 1], [3, 1, 1]] [[1], [1], [3, 1, 1]] 0 2 (by decide) (by decide)
      (by decide) (by decide)⟩

/-!  ## The partition successor (C6) -/

/-- Comparing two lists with equal heads compares the tails. -/
theorem cmpL_cons_self (a : Nat) (as bs : List Nat) :
    cmpL (a :: as) (a :: bs) = cmpL as bs := by
  have h : compare a a = Ordering.eq := Nat.compare_eq_eq.mpr rfl
  simp only [cmpL, h]

/-- `cmpL` only looks past a common prefix. -/
theorem cmpL_append_left (P : List Nat) :
    ∀ (s t : List Nat), cmpL (P ++ s) (P ++ t) = cmpL s t := by
  induction P with
  | nil => intro s t; rfl
  | cons e P ih =>
    intro s t
    simp only [List.cons_append, cmpL_cons_self]
    exact ih s t

/-- Overwriting position `k` and truncating right after it appends the
new value to the prefix. -/
theorem take_set_succ (w : List Nat) (k v : Nat) (hk : k < w.length) :
    (w.set k v).take (k + 1) = w.take k ++ [v] := by
  rw [List.set_eq_take_append_cons_drop, if_pos hk]
  rw [show k + 1 = (w.take k).length + 1 from by rw [List.length_take]; omega]
  rw [List.take_append]
  simp

/-- What the redistribution loop of `next_part` computes: starting at
position `k` with remainder `y`, it writes `y / x` copies of `x` and
leaves `x + y % x` for the final cell. -/
theorem next_part_go_spec (x : Nat) (hx : 0 < x) :
    ∀ (fuel y : Nat) (w : Part') (k : Nat), y < fuel → k + y / x + 1 ≤ w.length →
      ((next_part_go fuel w k x y).1.set (next_part_go fuel w k x y).2.1
          (x + (next_part_go fuel w k x y).2.2)).take ((next_part_go fuel w k x y).2.1 + 1)
        = w.take k ++ List.replicate (y / x) x ++ [x + y % x] := by
  intro fuel
  induction fuel with
  | zero => intro y w k hy; omega
  | succ fuel ih =>
    intro y w k hy hlen
    by_cases hxy : x ≤ y
    · have hdiv : y / x = (y - x) / x + 1 := Nat.div_eq_sub_div hx hxy
      have hmod : y % x = (y - x) % x := Nat.mod_eq_sub_mod hxy
      obtain ⟨j, hj⟩ : ∃ j, (y - x) / x = j := ⟨_, rfl⟩
      have hlen' : k + 1 + j + 1 ≤ w.length := by
        rw [hdiv, hj] at hlen
        omega
      have hgo : next_part_go (fuel + 1) w k x y
          = next_part_go fuel (w.set k x) (k + 1) x (y - x) := by
        conv_lhs => rw [next_part_go]
        rw [if_pos ⟨hx, hxy⟩]
      rw [hgo]
      rw [ih (y - x) (w.set k x) (k + 1) (by omega)
        (by rw [List.length_set, hj]; omega)]
      rw [take_set_succ w k x (by omega)]
      rw [hdiv, hmod, List.replicate_succ]
      simp [List.append_assoc]
    · have hgo : next_part_go (fuel + 1) w k x y = (w, k, y) := by
        conv_lhs => rw [next_part_go]
        rw [if_neg (by omega)]
      rw [hgo]
      have h0 : y / x = 0 := Nat.div_eq_of_lt (by omega)
      rw [h0] at hlen
      rw [h0, Nat.mod_eq_of_lt (by omega)]
      simp only [List.replicate_zero, List.append_nil]
      exact take_set_succ w k (x + y) (by omega)

theorem cmpL_nil_nil : cmpL [] [] = .eq := rfl

theorem cmpL_nil_cons (b : Nat) (bs : List Nat) : cmpL [] (b :: bs) = .lt := rfl

theorem cmpL_cons_nil (a : Nat) (as : List Nat) : cmpL (a :: as) [] = .gt := rfl

theorem cmpL_cons_lt (a b : Nat) (as bs : List Nat) (h : a < b) :
    cmpL (a :: as) (b :: bs) = .lt := by
  simp only [cmpL, Nat.compare_eq_lt.mpr h]

theorem cmpL_cons_gt (a b : Nat) (as bs : List Nat) (h : b < a) :
    cmpL (a :: as) (b :: bs) = .gt := by
  simp only [cmpL, Nat.compare_eq_gt.mpr h]

/-- Minimality of the redistribution tail: among the sorted sequences
with entries at least `x` summing to `x + y`, the sequence
`x, ..., x, x + (y mod x)` with `y / x` copies of `x` is
lexicographically least. -/
theorem cmpL_min_tail (x : Nat) (hx : 0 < x) :
    ∀ (s : List Nat) (y : Nat), List.Sorted (· ≤ ·) s → (∀ e ∈ s, x ≤ e) →
      s.sum = x + y → cmpL (List.replicate (y / x) x ++ [x + y % x]) s ≠ .gt := by
  intro s
  induction s with
  | nil =>
    intro y _ _ hsum
    simp at hsum
    omega
  | cons s0 s' ih =>
    intro y hsort hge hsum
    by_cases hxy : x ≤ y
    · rw [Nat.div_eq_sub_div hx hxy, Nat.mod_eq_sub_mod hxy, List.replicate_succ,
        List.cons_append]
      rcases Nat.lt_or_ge x s0 with hlt | hge0
      · rw [cmpL_cons_lt _ _ _ _ hlt]
        simp
      · have hs0 : s0 = x := Nat.le_antisymm hge0 (hge s0 (by simp))
        rw [hs0, cmpL_cons_self]
        apply ih (y - x) (List.sorted_cons.mp hsort).2
          (fun e he => hge e (by simp [he]))
        have : s0 + s'.sum = x + y := by simpa using hsum
        omega
    · rw [Nat.div_eq_of_lt (by omega), Nat.mod_eq_of_lt (by omega)]
      simp only [List.replicate_zero, List.nil_append]
      cases s' with
      | nil =>
        have h0 : s0 = x + y := by simpa using hsum
        rw [h0, cmpL_cons_self, cmpL_nil_nil]
        simp
      | cons s1 s2 =>
        exfalso
        have h1 : x ≤ s0 := hge s0 (by simp)
        have h2 : x ≤ s1 := hge s1 (by simp)
        have h3 : s0 + (s1 + s2.sum) = x + y := by simpa using hsum
        omega

/-- Minimality of the full successor partition: any sorted positive
sequence with the same sum that is lexicographically above
`P ++ [a, b]` is at or above `P` followed by the redistribution tail of
`x = a + 1`, `y = b - 1`. -/
theorem cmpL_min_prefix (a b : Nat) (hb : 1 ≤ b) :
    ∀ (P s : List Nat),
      List.Sorted (· ≤ ·) s → (∀ e ∈ s, 0 < e) → s.sum = (P ++ [a, b]).sum →
      cmpL (P ++ [a, b]) s = .lt →
      cmpL (P ++ (List.replicate ((b - 1) / (a + 1)) (a + 1)
        ++ [(a + 1) + (b - 1) % (a + 1)])) s ≠ .gt := by
  intro P
  induction P with
  | nil =>
    intro s hsort hpos hsum hlt
    cases s with
    | nil => simp [cmpL_cons_nil] at hlt
    | cons s0 s' =>
      simp only [List.nil_append] at hsum hlt ⊢
      rcases Nat.lt_trichotomy a s0 with hcas | hcas | hcas
      · -- a < s0: every entry of s is at least a + 1; use tail minimality
        apply cmpL_min_tail (a + 1) (by omega) (s0 :: s') (b - 1) hsort
        · intro e he
          rcases List.mem_cons.mp he with he0 | he'
          · omega
          · have := List.rel_of_sorted_cons hsort e he'
            omega
        · have h4 : s0 + s'.sum = a + b := by simpa using hsum
          simp only [List.sum_cons]
          omega
      · -- a = s0: the hypotheses are contradictory
        exfalso
        subst hcas
        rw [cmpL_cons_self] at hlt
        cases s' with
        | nil => simp [cmpL_cons_nil] at hlt
        | cons s1 s2 =>
          rcases Nat.lt_trichotomy b s1 with hcb | hcb | hcb
          · have : a + (s1 + s2.sum) = a + b := by simpa using hsum
            omega
          · subst hcb
            rw [cmpL_cons_self] at hlt
            cases s2 with
            | nil => simp [cmpL_nil_nil] at hlt
            | cons z zs =>
              have hz : 0 < z := hpos z (by simp)
              have : a + (b + (z + zs.sum)) = a + b := by simpa using hsum
              omega
          · rw [cmpL_cons_gt _ _ _ _ hcb] at hlt
            simp at hlt
      · rw [cmpL_cons_gt _ _ _ _ hcas] at hlt
        simp at hlt
  | cons e P ih =>
    intro s hsort hpos hsum hlt
    cases s with
    | nil => simp [cmpL_cons_nil] at hlt
    | cons s0 s' =>
      simp only [List.cons_append] at hsum hlt ⊢
      rcases Nat.lt_trichotomy e s0 with hcas | hcas | hcas
      · rw [cmpL_cons_lt _ _ _ _ hcas]
        simp
      · subst hcas
        rw [cmpL_cons_self] at hlt
        rw [cmpL_cons_self]
        apply ih s' (List.sorted_cons.mp hsort).2 (fun z hz => hpos z (by simp [hz]))
          (by
            have := hsum
            simp only [List.sum_cons] at this ⊢
            omega)
          hlt
      · rw [cmpL_cons_gt _ _ _ _ hcas] at hlt
        simp at hlt

/-- A list of positive integers is at least as long as its sum is. -/
theorem length_le_sum_of_pos : ∀ (p : List Nat), (∀ e ∈ p, 0 < e) → p.length ≤ p.sum := by
  intro p
  induction p with
  | nil => simp
  | cons e p ih =>
    intro h
    have h1 := h e (by simp)
    have h2 := ih fun z hz => h z (by simp [hz])
    simp only [List.length_cons, List.sum_cons]
    omega

/-- A block of copies of `x` followed by one value at least `x` is
sorted. -/
theorem sorted_replicate_app (j x v : Nat) (hxv : x ≤ v) :
    List.Sorted (· ≤ ·) (List.replicate j x ++ [v]) := by
  induction j with
  | zero => simp
  | succ n ih =>
    rw [List.replicate_succ, List.cons_append, List.sorted_cons]
    refine ⟨fun e he => ?_, ih⟩
    rcases List.mem_append.mp he with h1 | h1
    · rw [List.eq_of_mem_replicate h1]
    · simp at h1
      omega

/-- Every element of such a block is at least `x`. -/
theorem mem_replicate_app_ge (j x v e : Nat) (hxv : x ≤ v)
    (he : e ∈ List.replicate j x ++ [v]) : x ≤ e := by
  rcases List.mem_append.mp he with h1 | h1
  · rw [List.eq_of_mem_replicate h1]
  · simp at h1
    omega

/-- C6 (amended): for an ascending partition `p` (nondecreasing positive
parts), `next_part p` is `none` exactly when `p` has at most one part —
the single-part partition `[n]`, not the all-ones partition — and
otherwise returns the lexicographically next ascending partition of the
same total: an ascending positive sequence with the same sum, strictly
above `p`, and below or equal to every ascending positive sequence of the
same sum that is strictly above `p`. -/
theorem C6_next_part (p : Part')
    (hasc : List.Sorted (· ≤ ·) p) (hpos : ∀ e ∈ p, 0 < e) :
    (next_part p = none ↔ p.length ≤ 1) ∧
    (2 ≤ p.length → ∃ q, next_part p = some q ∧
      List.Sorted (· ≤ ·) q ∧ (∀ e ∈ q, 0 < e) ∧ q.sum = p.sum ∧
      cmpL p q = .lt ∧
      ∀ s, List.Sorted (· ≤ ·) s → (∀ e ∈ s, 0 < e) → s.sum = p.sum →
        cmpL p s = .lt → cmpL q s ≠ .gt) := by
  constructor
  · constructor
    · intro h
      by_contra hlen
      simp only [next_part, if_neg hlen] at h
      exact Option.noConfusion h
    · intro h
      simp only [next_part, if_pos h]
  intro hlen2
  obtain ⟨a, ha⟩ : ∃ a, p.getD (p.length - 2) 0 = a := ⟨_, rfl⟩
  obtain ⟨b, hb⟩ : ∃ b, p.getD (p.length - 1) 0 = b := ⟨_, rfl⟩
  obtain ⟨P, hP⟩ : ∃ P, p.take (p.length - 2) = P := ⟨_, rfl⟩
  have h1 : p.length - 2 < p.length := by omega
  have h2 : p.length - 1 < p.length := by omega
  have hPlen : P.length = p.length - 2 := by
    rw [← hP, List.length_take]
    omega
  have hdecomp : p = P ++ [a, b] := by
    conv_lhs => rw [← List.take_append_drop (p.length - 2) p]
    rw [hP]
    congr 1
    rw [List.drop_eq_getElem_cons h1,
      show p.length - 2 + 1 = p.length - 1 from by omega,
      List.drop_eq_getElem_cons h2,
      show p.length - 1 + 1 = p.length from by omega, List.drop_length,
      ← List.getD_eq_getElem p 0 h1, ← List.getD_eq_getElem p 0 h2, ha, hb]
  have hbp : b ∈ p := by
    rw [hdecomp]
    simp
  have hap : a ∈ p := by
    rw [hdecomp]
    simp
  have hb1 : 1 ≤ b := hpos b hbp
  have ha1 : 1 ≤ a := hpos a hap
  have hsplit : List.Pairwise (· ≤ ·) (P ++ [a, b]) := by
    rw [← hdecomp]
    exact hasc
  rw [List.pairwise_append] at hsplit
  obtain ⟨hsortP, hsortab, hcross⟩ := hsplit
  -- abbreviations for the redistribution result
  obtain ⟨j, hj⟩ : ∃ j, (b - 1) / (a + 1) = j := ⟨_, rfl⟩
  obtain ⟨mo, hmo⟩ : ∃ mo, (b - 1) % (a + 1) = mo := ⟨_, rfl⟩
  have hmoa : mo ≤ a := by
    have := Nat.mod_lt (b - 1) (show 0 < a + 1 from by omega)
    omega
  have hdm : (a + 1) * j + mo = b - 1 := by
    rw [← hj, ← hmo]
    exact Nat.div_add_mod (b - 1) (a + 1)
  obtain ⟨w, hw⟩ : ∃ w, (a + 1) * j = w := ⟨_, rfl⟩
  have hjble : j ≤ b - 1 := by
    rw [← hj]
    exact Nat.div_le_self _ _
  have hwdm : w + mo = b - 1 := by
    rw [← hw]
    exact hdm
  have hwj : w = j * (a + 1) := by
    rw [← hw, Nat.mul_comm]
  -- the sum bound that keeps the loop inside the padded vector
  have hPpos : ∀ e ∈ P, 0 < e := fun e he => hpos e (by rw [hdecomp]; simp [he])
  have hPsum : P.length ≤ P.sum := length_le_sum_of_pos P hPpos
  have hsump : p.sum = P.sum + (a + b) := by
    rw [hdecomp]
    simp
  -- computing next_part
  have hnp : next_part p = some (P ++ (List.replicate j (a + 1) ++ [a + 1 + mo])) := by
    simp only [next_part, sum_part]
    rw [if_neg (by omega)]
    rw [ha, hb]
    rw [next_part_go_spec (a + 1) (by omega) (b - 1 + 1) (b - 1)
      (p ++ List.replicate (p.sum - p.length) 0) (p.length - 2) (by omega)
      (by
        rw [hj, List.length_append, List.length_replicate]
        have := length_le_sum_of_pos p hpos
        omega)]
    rw [List.take_append_of_le_length (by omega), hP, hj, hmo]
    rw [List.append_assoc]
  refine ⟨P ++ (List.replicate j (a + 1) ++ [a + 1 + mo]), hnp, ?_, ?_, ?_, ?_, ?_⟩
  · -- sorted
    refine List.pairwise_append.mpr ⟨hsortP, sorted_replicate_app j (a + 1) (a + 1 + mo) (by omega), ?_⟩
    intro e he f hf
    have h3 : e ≤ a := hcross e he a (by simp)
    have h4 : a + 1 ≤ f := mem_replicate_app_ge j (a + 1) (a + 1 + mo) f (by omega) hf
    omega
  · -- positive
    intro e he
    rcases List.mem_append.mp he with h3 | h3
    · exact hPpos e h3
    · have := mem_replicate_app_ge j (a + 1) (a + 1 + mo) e (by omega) h3
      omega
  · -- same sum
    rw [List.sum_append, List.sum_append, List.sum_replicate, smul_eq_mul, ← hwj]
    simp only [List.sum_cons, List.sum_nil]
    rw [hsump]
    omega
  · -- strictly above p
    rw [hdecomp, cmpL_append_left]
    cases j with
    | zero =>
      rw [List.replicate_zero, List.nil_append]
      exact cmpL_cons_lt _ _ _ _ (by omega)
    | succ n =>
      rw [List.replicate_succ, List.cons_append]
      exact cmpL_cons_lt _ _ _ _ (by omega)
  · -- minimal among partitions strictly above p
    intro s hsorts hposs hsums hlts
    rw [← hj, ← hmo]
    exact cmpL_min_prefix a b hb1 P s hsorts hposs
      (by rw [← hdecomp]; exact hsums) (by rw [← hdecomp]; exact hlts)

/-- C6 (counterexample): on the all-ones partition `[1, 1]` of total 2,
`next_part` does not return `none` — it returns the next partition
`[2]`.  `next_part` returns `none` only on partitions with at most one
part. -/
theorem C6_counterexample :
    List.replicate 2 1 = [1, 1] ∧ next_part [1, 1] = some [2] ∧
    next_part [1, 1] ≠ none := by
  decide

/-- C6 (witness): the amended statement instantiated at the ascending
partition `[1, 1]`. -/
theorem C6_witness :
    (next_part [1, 1] = none ↔ ([1, 1] : Part').length ≤ 1) ∧
    (2 ≤ ([1, 1] : Part').length → ∃ q, next_part [1, 1] = some q ∧
      List.Sorted (· ≤ ·) q ∧ (∀ e ∈ q, 0 < e) ∧ q.sum = ([1, 1] : Part').sum ∧
      cmpL [1, 1] q = .lt ∧
      ∀ s, List.Sorted (· ≤ ·) s → (∀ e ∈ s, 0 < e) → s.sum = ([1, 1] : Part').sum →
        cmpL [1, 1] s = .lt → cmpL q s ≠ .gt) :=
  C6_next_part [1, 1] (by simp) (by decide)

/-!  ## Faithfulness of the iteration bound in `next_comp` -/

/-- The subtree slices from index `i` carry at most `t.length - i`
entries in total. -/
theorem treePartsF_sum_len (t : Tree') :
    ∀ (fuel i : Nat), ((treePartsF t fuel i).map List.length).sum ≤ t.length - i := by
  intro fuel
  induction fuel with
  | zero =>
    intro i
    simp [treePartsF]
  | succ fuel ih =>
    intro i
    by_cases h : i < t.length
    · by_cases hk : t.getD i 0 = 0
      · have hstep0 : treePartsF t (fuel + 1) i = [] := by
          conv_lhs => rw [treePartsF]
          rw [if_pos h, if_pos hk]
        rw [hstep0]
        simp
      · have hstep : treePartsF t (fuel + 1) i
            = ((t.drop i).take (t.getD i 0)) :: treePartsF t fuel (i + t.getD i 0) := by
          conv_lhs => rw [treePartsF]
          rw [if_pos h, if_neg hk]
        rw [hstep]
        simp only [List.map_cons, List.sum_cons]
        have h1 := ih (i + t.getD i 0)
        have h2a : ((t.drop i).take (t.getD i 0)).length ≤ t.getD i 0 := by
          rw [List.length_take]
          exact Nat.min_le_left _ _
        have h2b : ((t.drop i).take (t.getD i 0)).length ≤ t.length - i := by
          rw [List.length_take, List.length_drop]
          exact Nat.min_le_right _ _
        omega
    · simp [treePartsF, h]

/-- Every subtree slice is nonempty. -/
theorem treePartsF_ne_nil (t : Tree') :
    ∀ (fuel i : Nat), ∀ q ∈ treePartsF t fuel i, q ≠ [] := by
  intro fuel
  induction fuel with
  | zero =>
    intro i q hq
    simp [treePartsF] at hq
  | succ fuel ih =>
    intro i q hq
    by_cases h : i < t.length
    · by_cases hk : t.getD i 0 = 0
      · have hstep0 : treePartsF t (fuel + 1) i = [] := by
          conv_lhs => rw [treePartsF]
          rw [if_pos h, if_pos hk]
        rw [hstep0] at hq
        simp at hq
      · have hstep : treePartsF t (fuel + 1) i
            = ((t.drop i).take (t.getD i 0)) :: treePartsF t fuel (i + t.getD i 0) := by
          conv_lhs => rw [treePartsF]
          rw [if_pos h, if_neg hk]
        rw [hstep] at hq
        rcases List.mem_cons.mp hq with h1 | h1
        · rw [h1]
          have hpos : 0 < ((t.drop i).take (t.getD i 0)).length := by
            rw [List.length_take, List.length_drop]
            exact Nat.lt_min.mpr ⟨by omega, by omega⟩
          exact List.length_pos.mp hpos
        · exact ih (i + t.getD i 0) q h1
    · simp [treePartsF, h] at hq

/-- On nonempty lists, summing `length - 1` loses exactly one per
list. -/
theorem sum_pred_lengths :
    ∀ (ps : List Tree'), (∀ q ∈ ps, q ≠ []) →
      ((ps.map fun q => q.length - 1).sum + ps.length = (ps.map List.length).sum) := by
  intro ps
  induction ps with
  | nil => simp
  | cons q ps ih =>
    intro h
    have hq : q ≠ [] := h q (by simp)
    have hlen : 1 ≤ q.length := by
      cases q with
      | nil => exact absurd rfl hq
      | cons a as => simp
    simp only [List.map_cons, List.sum_cons, List.length_cons]
    have := ih fun z hz => h z (by simp [hz])
    omega

/-- `compM` distributes over concatenation. -/
theorem compM_append (xs ys : Comp) : compM (xs ++ ys) = compM xs + compM ys := by
  unfold compM
  rw [List.map_append, List.sum_append, List.countP_append]
  omega

/-- `unmerge` strictly decreases the loop measure `compM`: it replaces a
tree of size `s ≥ 2` by a single vertex and subtrees carrying at most
`s - 1` vertices in total, or a (never valid) empty tree code by `[1]`. -/
theorem compM_unmerge_lt (c v : Comp) (l r : Nat)
    (h : unmerge c = some (v, l, r)) : compM v < compM c := by
  simp only [unmerge] at h
  by_cases hfind : (c.findIdx fun t => decide (t.length ≠ 1)) = c.length
  · rw [if_pos hfind] at h
    exact absurd h (by simp)
  rw [if_neg hfind] at h
  simp only [Option.some.injEq, Prod.mk.injEq] at h
  obtain ⟨hv, hl, _⟩ := h
  have hlc : l < c.length := by
    rw [← hl]
    exact Nat.lt_of_le_of_ne (List.findIdx_le_length _) hfind
  rw [hl] at hv
  set t0 := c.getD l [] with ht0def
  have htne : t0.length ≠ 1 := by
    have hidx : (c.findIdx fun t => decide (t.length ≠ 1)) < c.length := by
      rw [hl]
      exact hlc
    have hP : (c.getD (c.findIdx fun t => decide (t.length ≠ 1)) []).length ≠ 1 := by
      rw [List.getD_eq_getElem c [] hidx]
      simpa using @List.findIdx_getElem _ (fun t => decide (t.length ≠ 1)) c hidx
    rw [hl] at hP
    rw [ht0def]
    exact hP
  have hcdecomp : c = c.take l ++ t0 :: c.drop (l + 1) := by
    conv_lhs => rw [← List.take_append_drop l c]
    rw [List.drop_eq_getElem_cons hlc, ← List.getD_eq_getElem c [] hlc]
  have hB : compM ([1] :: treeParts t0 1)
      = ((treeParts t0 1).map fun q => q.length - 1).sum
        + (treeParts t0 1).countP fun q => decide (q.length = 0) := by
    unfold compM
    simp [List.countP_cons]
  have hkey : compM ([1] :: treeParts t0 1) < compM [t0] := by
    by_cases h0 : t0.length = 0
    · have hparts : treeParts t0 1 = [] := by
        unfold treeParts
        rw [h0]
        rfl
      have hnil : t0 = [] := List.length_eq_zero.mp h0
      rw [hB, hparts, hnil]
      decide
    · have h2 : 2 ≤ t0.length := by omega
      have hA : compM [t0] = t0.length - 1 := by
        unfold compM
        simp only [List.map_cons, List.map_nil, List.sum_cons, List.sum_nil,
          List.countP_cons, List.countP_nil, decide_eq_true_eq, if_neg h0]
        omega
      rw [hB, hA]
      have hs := treePartsF_sum_len t0 (t0.length - 1) 1
      have hsp := sum_pred_lengths (treeParts t0 1)
        (fun q hq => treePartsF_ne_nil t0 (t0.length - 1) 1 q hq)
      have hcount : ((treeParts t0 1).countP fun q => decide (q.length = 0)) = 0 := by
        rw [List.countP_eq_zero]
        intro q hq
        have hne := treePartsF_ne_nil t0 (t0.length - 1) 1 q hq
        simp only [decide_eq_true_eq]
        intro hq0
        exact hne (List.length_eq_zero.mp hq0)
      rw [hcount]
      by_cases hpe : treeParts t0 1 = []
      · rw [hpe]
        simp
        omega
      · have hg : 1 ≤ (treeParts t0 1).length := List.length_pos.mpr hpe
        unfold treeParts at hsp hs hg ⊢
        omega
  calc compM v = compM (c.take l) + compM ([1] :: treeParts t0 1) + compM (c.drop (l + 1)) := by
        rw [← hv]
        rw [show c.take l ++ [1] :: treeParts t0 1 ++ c.drop (l + 1)
            = c.take l ++ (([1] :: treeParts t0 1) ++ c.drop (l + 1)) from by
          simp [List.append_assoc]]
        rw [compM_append, compM_append]
        omega
    _ < compM (c.take l) + compM [t0] + compM (c.drop (l + 1)) := by omega
    _ = compM c := by
        conv_rhs => rw [hcdecomp]
        rw [show c.take l ++ t0 :: c.drop (l + 1)
            = c.take l ++ ([t0] ++ c.drop (l + 1)) from by simp]
        rw [compM_append, compM_append]
        omega

/-- The result of the unmerge loop does not depend on the iteration
bound, once the bound exceeds the measure of the unmerged component;
`next_comp` passes `compM c + 1`, which always does. -/
theorem unmergeGo_congr :
    ∀ (f1 f2 : Nat) (o : Option (Comp × Nat × Nat)),
      (∀ u l r, o = some (u, l, r) → compM u < f1) →
      (∀ u l r, o = some (u, l, r) → compM u < f2) →
      unmergeGo f1 o = unmergeGo f2 o := by
  intro f1
  induction f1 with
  | zero =>
    intro f2 o h1 h2
    cases o with
    | none => cases f2 <;> rfl
    | some x =>
      obtain ⟨u, l, r⟩ := x
      exact absurd (h1 u l r rfl) (by omega)
  | succ f1 ih =>
    intro f2 o h1 h2
    cases o with
    | none => cases f2 <;> rfl
    | some x =>
      obtain ⟨u, l, r⟩ := x
      cases f2 with
      | zero => exact absurd (h2 u l r rfl) (by omega)
      | succ f2 =>
        show (match next_merge u l (r + 1) with
          | some m => some m
          | none => unmergeGo f1 (unmerge u))
          = (match next_merge u l (r + 1) with
          | some m => some m
          | none => unmergeGo f2 (unmerge u))
        cases hnm : next_merge u l (r + 1) with
        | some m => rfl
        | none =>
          exact ih f2 (unmerge u)
            (fun v lv rv hv => by
              have := compM_unmerge_lt u v lv rv hv
              have := h1 u l r rfl
              omega)
            (fun v lv rv hv => by
              have := compM_unmerge_lt u v lv rv hv
              have := h2 u l r rfl
              omega)

/-- The `compM c + 1` bound that `next_comp` passes to `unmergeGo` is
immaterial: any larger bound computes the same result, so the embedded
loop agrees with the Rust `while let` loop, which `compM_unmerge_lt`
shows terminates. -/
theorem next_comp_fuel_eq (c : Comp) (fuel : Nat) (h : compM c < fuel) :
    unmergeGo fuel (unmerge c) = unmergeGo (compM c + 1) (unmerge c) :=
  unmergeGo_congr fuel (compM c + 1) (unmerge c)
    (fun u lu ru hu => by
      have := compM_unmerge_lt c u lu ru hu
      omega)
    (fun u lu ru hu => by
      have := compM_unmerge_lt c u lu ru hu
      omega)
